/-
Verification of the randomness-extraction and statistical-validation core of
the qrng-cryptographic-security repository.

The Python sources are shallowly embedded:
* bitstrings (Python `str` of '0'/'1' characters) become `List Char`;
* byte strings (Python `bytes`) become `List ℕ` with entries below 256;
* floats used only for exact dyadic arithmetic become `ℚ`; floats fed into
  `math.sqrt` / `math.erfc` become `ℝ`;
* the global `_bitCache` / stream of measured bits becomes an explicit
  `QState` threaded through the operations, with the entropy source modelled
  as an infinite bit stream `ℕ → Char`;
* a Python function that can raise becomes an `Option`-valued function,
  `none` marking the raised exception;
* the unbounded `while` loop of the fixed-length extractor becomes a
  fuel-indexed iteration, `none` marking fuel exhaustion (the loop still
  running after that many iterations).
-/
import Mathlib

set_option autoImplicit false

namespace QrngVerify

/-! ## Von Neumann extractor (src/qrng/quantum_rng.py, `von_neumann_extractor`)

Python iterates `for i in range(0, len(bits) - 1, 2)` over non-overlapping
2-character windows (a trailing odd character is never visited), emitting
'0' for the window "01", '1' for "10", and nothing otherwise. -/

def von_neumann_extractor : List Char → List Char
  | a :: b :: rest =>
      (if a = '0' ∧ b = '1' then ['0']
       else if a = '1' ∧ b = '0' then ['1']
       else []) ++ von_neumann_extractor rest
  | _ => []

/-- Partition a list into its non-overlapping 2-element windows, dropping a
trailing unpaired element (mirrors `range(0, len(bits) - 1, 2)`). -/
def pairUp {α : Type} : List α → List (α × α)
  | a :: b :: rest => (a, b) :: pairUp rest
  | _ => []

/-- The spec's description of pairwise debiasing: each window `01` emits `0`,
`10` emits `1`, and `00`/`11` emit nothing. -/
def vnWindows (bits : List Char) : List Char :=
  (pairUp bits).filterMap fun p =>
    if p = ('0', '1') then some '0'
    else if p = ('1', '0') then some '1'
    else none

theorem von_neumann_eq_windows (bits : List Char) :
    von_neumann_extractor bits = vnWindows bits := by
  induction bits using von_neumann_extractor.induct with
  | case1 a b rest ih =>
      simp only [von_neumann_extractor, vnWindows, pairUp, List.filterMap_cons] at *
      rw [ih]
      by_cases h01 : a = '0' ∧ b = '1'
      · simp [h01.1, h01.2]
      · by_cases h10 : a = '1' ∧ b = '0'
        · simp [h10.1, h10.2, Prod.ext_iff]
        · have hne1 : ¬ (a, b) = ('0', '1') := by
            simp only [Prod.mk.injEq]; exact fun h => h01 ⟨h.1, h.2⟩
          have hne2 : ¬ (a, b) = ('1', '0') := by
            simp only [Prod.mk.injEq]; exact fun h => h10 ⟨h.1, h.2⟩
          simp [h01, h10, hne1, hne2]
  | case2 l h1 =>
      cases l with
      | nil => rfl
      | cons a tl =>
          cases tl with
          | nil => rfl
          | cons b r => exact absurd rfl (h1 a b r)

theorem von_neumann_length_le (bits : List Char) :
    2 * (von_neumann_extractor bits).length ≤ bits.length := by
  induction bits using von_neumann_extractor.induct with
  | case1 a b rest ih =>
      simp only [von_neumann_extractor, List.length_append, List.length_cons]
      have hlen :
          (if a = '0' ∧ b = '1' then ['0']
           else if a = '1' ∧ b = '0' then ['1'] else []).length ≤ 1 := by
        split
        · simp
        · split <;> simp
      omega
  | case2 l h1 =>
      cases l with
      | nil => simp [von_neumann_extractor]
      | cons a tl =>
          cases tl with
          | nil => simp [von_neumann_extractor]
          | cons b r => exact absurd rfl (h1 a b r)

/-- C4: the pairwise (Von Neumann) debiasing transform maps each
non-overlapping 2-bit window `01` to `0`, `10` to `1`, and discards `00` and
`11`; its output is at most half the length of the input; and re-running it
on its own output again yields at most half of that (it is total, so the
re-run cannot crash). -/
theorem von_neumann_window_map_and_halving :
    (∀ bits : List Char, von_neumann_extractor bits = vnWindows bits) ∧
    (∀ bits : List Char, 2 * (von_neumann_extractor bits).length ≤ bits.length) ∧
    (∀ bits : List Char,
      2 * (von_neumann_extractor (von_neumann_extractor bits)).length ≤
        (von_neumann_extractor bits).length) :=
  ⟨von_neumann_eq_windows, von_neumann_length_le,
   fun bits => von_neumann_length_le (von_neumann_extractor bits)⟩

/-! ## Raw bit buffer (src/qrng/quantum_rng.py, `_request_bits` / `get_raw_bit_string`)

The module-level `_bitCache` string and the total number of bits ever taken
from the measurement stream form a `QState`.  The entropy source is an
infinite stream of bits `stream : ℕ → Char`; `_request_bits num_shots`
appends the next `num_shots * DEFAULT_QUBITS` stream bits to the cache
(each shot yields `DEFAULT_QUBITS` measured bits, concatenated in order). -/

def DEFAULT_QUBITS : ℕ := 8

structure QState where
  cache : List Char
  pos : ℕ
  deriving DecidableEq, Repr

/-- The contiguous block of stream bits at positions `[start, start+len)`. -/
def streamSlice (stream : ℕ → Char) (start len : ℕ) : List Char :=
  (List.range len).map fun i => stream (start + i)

/-- Embedding of `_request_bits(num_shots)`: append `num_shots * 8` fresh
stream bits to the cache. -/
def requestBits (stream : ℕ → Char) (shots : ℕ) (st : QState) : QState :=
  ⟨st.cache ++ streamSlice stream st.pos (shots * DEFAULT_QUBITS),
   st.pos + shots * DEFAULT_QUBITS⟩

/-- The `while len(_bitCache) < n_bits` loop of `get_raw_bit_string`, with
`needed_shots = max(1, ceil((n_bits - len(_bitCache)) / DEFAULT_QUBITS))`. -/
def fillLoop (stream : ℕ → Char) (n : ℕ) (st : QState) : QState :=
  if st.cache.length < n then
    fillLoop stream n
      (requestBits stream
        (max 1 ((n - st.cache.length + (DEFAULT_QUBITS - 1)) / DEFAULT_QUBITS)) st)
  else st
termination_by n - st.cache.length
decreasing_by
  simp only [requestBits, streamSlice, List.length_append, List.length_map,
    List.length_range, DEFAULT_QUBITS]
  have h1 : 1 ≤ max 1 ((n - st.cache.length + (8 - 1)) / 8) := le_max_left _ _
  omega

/-- Embedding of `get_raw_bit_string(n_bits)`: fill the cache until it holds
at least `n` bits, return the first `n` and keep the rest buffered. -/
def get_raw_bit_string (stream : ℕ → Char) (n : ℕ) (st : QState) :
    List Char × QState :=
  let st' := fillLoop stream n st
  (st'.cache.take n, ⟨st'.cache.drop n, st'.pos⟩)

/-- A sequence of `get_raw_bit_string` requests, collecting every returned
bitstring (models successive calls against the shared buffer). -/
def processAll (stream : ℕ → Char) : List ℕ → QState → List (List Char) × QState
  | [], st => ([], st)
  | n :: ns, st =>
      let r := get_raw_bit_string stream n st
      let rest := processAll stream ns r.2
      (r.1 :: rest.1, rest.2)

theorem streamSlice_length (stream : ℕ → Char) (start len : ℕ) :
    (streamSlice stream start len).length = len := by
  simp [streamSlice]

theorem streamSlice_zero (stream : ℕ → Char) (start : ℕ) :
    streamSlice stream start 0 = [] := by
  simp [streamSlice]

theorem streamSlice_append (stream : ℕ → Char) (start k1 k2 : ℕ) :
    streamSlice stream start k1 ++ streamSlice stream (start + k1) k2 =
      streamSlice stream start (k1 + k2) := by
  simp only [streamSlice, List.range_add, List.map_append, List.map_map]
  congr 1
  apply List.map_congr_left
  intro i _
  simp [Function.comp]
  ring_nf

theorem fillLoop_spec (stream : ℕ → Char) (n : ℕ) :
    ∀ (m : ℕ) (st : QState), n - st.cache.length ≤ m →
      ∃ k, fillLoop stream n st =
            ⟨st.cache ++ streamSlice stream st.pos k, st.pos + k⟩ ∧
          n ≤ st.cache.length + k := by
  intro m
  induction m with
  | zero =>
      intro st hm
      rw [fillLoop]
      have hn : ¬ st.cache.length < n := by omega
      refine ⟨0, ?_, by omega⟩
      simp [hn, streamSlice_zero]
  | succ m ih =>
      intro st hm
      by_cases h : st.cache.length < n
      · rw [fillLoop, if_pos h]
        set shots := max 1 ((n - st.cache.length + (DEFAULT_QUBITS - 1)) / DEFAULT_QUBITS)
          with hshots
        have hshots1 : 1 ≤ shots := le_max_left _ _
        set st1 := requestBits stream shots st with hst1
        have hcache1 : st1.cache = st.cache ++ streamSlice stream st.pos (shots * DEFAULT_QUBITS) := rfl
        have hpos1 : st1.pos = st.pos + shots * DEFAULT_QUBITS := rfl
        have hlen1 : st1.cache.length = st.cache.length + shots * DEFAULT_QUBITS := by
          rw [hcache1, List.length_append, streamSlice_length]
        have hm1 : n - st1.cache.length ≤ m := by
          rw [hlen1]
          have : 8 ≤ shots * DEFAULT_QUBITS := by
            simp only [DEFAULT_QUBITS]; omega
          omega
        obtain ⟨k, hk, hnk⟩ := ih st1 hm1
        refine ⟨shots * DEFAULT_QUBITS + k, ?_, by omega⟩
        rw [hk, hcache1, hpos1]
        rw [List.append_assoc, streamSlice_append]
        congr 1
        omega
      · rw [fillLoop]
        refine ⟨0, ?_, by omega⟩
        simp [h, streamSlice_zero]

theorem get_raw_bit_string_length (stream : ℕ → Char) (n : ℕ) (st : QState) :
    (get_raw_bit_string stream n st).1.length = n := by
  obtain ⟨k, hk, hnk⟩ := fillLoop_spec stream n (n - st.cache.length) st le_rfl
  simp only [get_raw_bit_string, hk, List.length_take, List.length_append,
    streamSlice_length]
  omega

theorem get_raw_bit_string_conservation (stream : ℕ → Char) (n : ℕ) (st : QState) :
    ∃ k, (get_raw_bit_string stream n st).2.pos = st.pos + k ∧
      (get_raw_bit_string stream n st).1 ++ (get_raw_bit_string stream n st).2.cache =
        st.cache ++ streamSlice stream st.pos k := by
  obtain ⟨k, hk, _⟩ := fillLoop_spec stream n (n - st.cache.length) st le_rfl
  refine ⟨k, ?_, ?_⟩
  · simp [get_raw_bit_string, hk]
  · simp [get_raw_bit_string, hk, List.take_append_drop]

theorem processAll_conservation (stream : ℕ → Char) :
    ∀ (ns : List ℕ) (st : QState),
      ∃ k, (processAll stream ns st).2.pos = st.pos + k ∧
        ((processAll stream ns st).1).flatten ++ (processAll stream ns st).2.cache =
          st.cache ++ streamSlice stream st.pos k := by
  intro ns
  induction ns with
  | nil =>
      intro st
      exact ⟨0, by simp [processAll], by simp [processAll, streamSlice_zero]⟩
  | cons n ns ih =>
      intro st
      obtain ⟨k1, hp1, hc1⟩ := get_raw_bit_string_conservation stream n st
      obtain ⟨k2, hp2, hc2⟩ := ih (get_raw_bit_string stream n st).2
      refine ⟨k1 + k2, ?_, ?_⟩
      · simp only [processAll, hp2, hp1]
        omega
      · simp only [processAll, List.flatten_cons, List.append_assoc]
        rw [hc2, hp1, ← List.append_assoc, hc1, List.append_assoc, streamSlice_append]

/-- C5: every buffered raw-bit request returns exactly `n` bits, and across
any sequence of requests starting from an empty buffer, the concatenation of
all returned bitstrings plus the remaining buffered bits equals, in order,
the prefix of the entropy stream consumed so far (FIFO conservation: no bit
is discarded or duplicated). -/
theorem raw_request_exact_and_fifo_conservation :
    (∀ (stream : ℕ → Char) (n : ℕ) (st : QState),
        (get_raw_bit_string stream n st).1.length = n) ∧
    (∀ (stream : ℕ → Char) (ns : List ℕ),
        ((processAll stream ns ⟨[], 0⟩).1).flatten ++
            (processAll stream ns ⟨[], 0⟩).2.cache =
          streamSlice stream 0 (processAll stream ns ⟨[], 0⟩).2.pos) := by
  refine ⟨get_raw_bit_string_length, ?_⟩
  intro stream ns
  obtain ⟨k, hp, hc⟩ := processAll_conservation stream ns ⟨[], 0⟩
  simp only [hc, hp]
  simp

/-! ## Fixed-length extraction (src/qrng/quantum_rng.py, `get_bit_string`
with `use_extractor=True`)

The adaptive loop keeps per-call state `(extracted, est_efficiency)` and the
shared buffer state.  Python floats for the efficiency estimate are modelled
as `ℚ` (the loop only adds, multiplies and divides).  `int(x)` on the
positive float `remaining / est + 32` is its floor.  The `while` loop has no
iteration bound in the source; the embedding indexes it by fuel, `none`
meaning the loop is still running after `fuel` iterations. -/

/-- `need_raw = int((remaining / est_efficiency) + DEFAULT_QUBITS * 4)`. -/
def needRaw (est : ℚ) (remaining : ℕ) : ℕ :=
  (⌊(remaining : ℚ) / est + (DEFAULT_QUBITS * 4 : ℕ)⌋).toNat

/-- The efficiency update: `if len(raw) > 0:
`est = 0.7 * est + 0.3 * max(0.01, len(out) / len(raw))`. -/
def estUpdate (est : ℚ) (outLen rawLen : ℕ) : ℚ :=
  if 0 < rawLen then
    (7 / 10) * est + (3 / 10) * max (1 / 100) ((outLen : ℚ) / (rawLen : ℚ))
  else est

/-- The `while len(extracted) < n_bits` loop body of `get_bit_string`
(extractor mode), one fuel unit per iteration. -/
def gbsLoop (stream : ℕ → Char) (n : ℕ) :
    ℕ → List Char → ℚ → QState → Option (List Char × QState)
  | 0, extracted, _, st =>
      if n ≤ extracted.length then some (extracted.take n, st) else none
  | fuel + 1, extracted, est, st =>
      if n ≤ extracted.length then some (extracted.take n, st)
      else
        let r := get_raw_bit_string stream (needRaw est (n - extracted.length)) st
        let out := von_neumann_extractor r.1
        gbsLoop stream n fuel (extracted ++ out) (estUpdate est out.length r.1.length) r.2

/-- `get_bit_string(n_bits, use_extractor=True)`: run the adaptive loop with
no bits extracted yet and the initial estimate `est_efficiency = 0.30`. -/
def get_bit_string_extracted (stream : ℕ → Char) (n fuel : ℕ) (st : QState) :
    Option (List Char × QState) :=
  gbsLoop stream n fuel [] (3 / 10) st

theorem gbsLoop_some_length (stream : ℕ → Char) (n : ℕ) :
    ∀ (fuel : ℕ) (ex : List Char) (est : ℚ) (st : QState)
      (out : List Char) (st' : QState),
      gbsLoop stream n fuel ex est st = some (out, st') → out.length = n := by
  intro fuel
  induction fuel with
  | zero =>
      intro ex est st out st' h
      simp only [gbsLoop] at h
      by_cases hg : n ≤ ex.length
      · rw [if_pos hg] at h
        obtain ⟨h1, -⟩ := Prod.mk.injEq .. ▸ Option.some.injEq .. ▸ h
        subst h1
        simp [List.length_take]
        omega
      · rw [if_neg hg] at h
        exact absurd h (by simp)
  | succ fuel ih =>
      intro ex est st out st' h
      simp only [gbsLoop] at h
      by_cases hg : n ≤ ex.length
      · rw [if_pos hg] at h
        obtain ⟨h1, -⟩ := Prod.mk.injEq .. ▸ Option.some.injEq .. ▸ h
        subst h1
        simp [List.length_take]
        omega
      · rw [if_neg hg] at h
        exact ih _ _ _ _ _ h

/-- C1: whenever the fixed-length extraction loop returns, the returned
bitstring has length exactly `n`; and for `n = 0` it returns the empty
bitstring at once, with the buffer state untouched (`st` is returned as is,
so in particular no bits were drawn from the raw source). -/
theorem extract_fixed_length_exact :
    (∀ (stream : ℕ → Char) (n fuel : ℕ) (st : QState)
        (out : List Char) (st' : QState),
        get_bit_string_extracted stream n fuel st = some (out, st') →
          out.length = n) ∧
    (∀ (stream : ℕ → Char) (fuel : ℕ) (st : QState),
        get_bit_string_extracted stream 0 fuel st = some ([], st)) := by
  constructor
  · intro stream n fuel st out st' h
    exact gbsLoop_some_length stream n fuel [] (3 / 10) st out st' h
  · intro stream fuel st
    cases fuel <;> simp [get_bit_string_extracted, gbsLoop]

/-- Witness for C1: at `n = 0` the loop returns immediately, and the main
theorem then certifies the returned bitstring has length `0`. -/
theorem extract_fixed_length_exact_witness :
    (([] : List Char).length = 0) ∧
      get_bit_string_extracted (fun _ => '0') 0 5 ⟨[], 0⟩ = some ([], ⟨[], 0⟩) :=
  ⟨extract_fixed_length_exact.1 (fun _ => '0') 0 5 ⟨[], 0⟩ [] ⟨[], 0⟩ rfl,
   extract_fixed_length_exact.2 (fun _ => '0') 5 ⟨[], 0⟩⟩

/-! ## C2: the adaptive loop has no iteration bound

With a source that never produces an extractable (`01`/`10`) pair — for
instance a stream of zeros — the loop makes no progress and runs forever:
no fuel suffices.  The source contains no maximum-iteration check and no
`ExtractionStalled` error.  What the code does enforce is the
minimum-efficiency clamp `max(0.01, ...)` and a raw request of at least
`DEFAULT_QUBITS * 4 = 32` bits per iteration. -/

theorem von_neumann_all_zeros :
    ∀ l : List Char, (∀ c ∈ l, c = '0') → von_neumann_extractor l = [] := by
  intro l
  induction l using von_neumann_extractor.induct with
  | case1 a b rest ih =>
      intro h
      have ha : a = '0' := h a (by simp)
      have hb : b = '0' := h b (by simp)
      subst ha; subst hb
      simp only [von_neumann_extractor]
      rw [ih (fun c hc => h c (by simp [hc]))]
      simp
  | case2 l h1 =>
      intro _
      cases l with
      | nil => simp [von_neumann_extractor]
      | cons a tl =>
          cases tl with
          | nil => simp [von_neumann_extractor]
          | cons b r => exact absurd rfl (h1 a b r)

theorem streamSlice_zeros (start len : ℕ) :
    ∀ c ∈ streamSlice (fun _ => '0') start len, c = '0' := by
  simp [streamSlice]

theorem gbsLoop_zeros_none :
    ∀ (fuel : ℕ) (est : ℚ) (st : QState), (∀ c ∈ st.cache, c = '0') →
      gbsLoop (fun _ => '0') 1 fuel [] est st = none := by
  intro fuel
  induction fuel with
  | zero => intro est st _; simp [gbsLoop]
  | succ fuel ih =>
      intro est st hst
      simp only [gbsLoop]
      rw [if_neg (by simp)]
      simp only [List.length_nil, Nat.sub_zero, List.nil_append]
      obtain ⟨k, hk, -⟩ :=
        fillLoop_spec (fun _ => '0') (needRaw est 1)
          (needRaw est 1 - st.cache.length) st le_rfl
      have hfc : ∀ c ∈ (fillLoop (fun _ => '0') (needRaw est 1) st).cache, c = '0' := by
        rw [hk]
        intro c hc
        rcases List.mem_append.mp hc with h | h
        · exact hst c h
        · exact streamSlice_zeros st.pos k c h
      have hraw : ∀ c ∈ (get_raw_bit_string (fun _ => '0') (needRaw est 1) st).1, c = '0' := by
        intro c hc
        exact hfc c (List.mem_of_mem_take hc)
      have hout :
          von_neumann_extractor
            (get_raw_bit_string (fun _ => '0') (needRaw est 1) st).1 = [] :=
        von_neumann_all_zeros _ hraw
      rw [hout]
      apply ih
      intro c hc
      exact hfc c (List.mem_of_mem_drop hc)

/-- C2 counterexample: requesting a single extracted bit from an all-zero
source never returns, whatever the iteration count — the loop is unbounded,
contradicting the claimed maximum-iteration safety bound and
`ExtractionStalled` error (no such bound or error exists in the source). -/
theorem extraction_stall_unbounded_counterexample :
    ¬ ∃ fuel : ℕ,
        (gbsLoop (fun _ => '0') 1 fuel [] (3 / 10) ⟨[], 0⟩).isSome = true := by
  rintro ⟨fuel, h⟩
  rw [gbsLoop_zeros_none fuel (3 / 10) ⟨[], 0⟩ (by simp)] at h
  simp at h

/-- C2 (amended): the loop enforces a minimum-efficiency floor — each raw
request asks for at least 32 bits and the efficiency estimate stays at or
above 0.01 — but there is no maximum-iteration bound and no
`ExtractionStalled` error: on an all-zero source the loop never terminates,
whatever fuel it is given. -/
theorem extraction_floor_but_no_iteration_bound :
    (∀ (est : ℚ) (r : ℕ), 0 < est → 32 ≤ needRaw est r) ∧
    (∀ (est : ℚ) (o rw : ℕ), 1 / 100 ≤ est → 1 / 100 ≤ estUpdate est o rw) ∧
    (∀ (fuel : ℕ) (est : ℚ) (st : QState), (∀ c ∈ st.cache, c = '0') →
        gbsLoop (fun _ => '0') 1 fuel [] est st = none) := by
  refine ⟨?_, ?_, gbsLoop_zeros_none⟩
  · intro est r hest
    have h0 : (0 : ℚ) ≤ (r : ℚ) / est := div_nonneg (Nat.cast_nonneg r) hest.le
    have h32 : (32 : ℤ) ≤ ⌊(r : ℚ) / est + (DEFAULT_QUBITS * 4 : ℕ)⌋ := by
      apply Int.le_floor.mpr
      simp only [DEFAULT_QUBITS]
      push_cast
      linarith
    simp only [needRaw]
    omega
  · intro est o rw hest
    simp only [estUpdate]
    split
    · have hmax : (1 / 100 : ℚ) ≤ max (1 / 100) ((o : ℚ) / (rw : ℚ)) :=
        le_max_left _ _
      nlinarith
    · exact hest

/-- Witness for C2 (amended): the floor facts at the initial estimate 0.30,
and three iterations of the loop on the all-zero source already stalled. -/
theorem extraction_floor_but_no_iteration_bound_witness :
    32 ≤ needRaw (3 / 10) 1 ∧ (1 / 100 : ℚ) ≤ estUpdate (3 / 10) 0 32 ∧
      gbsLoop (fun _ => '0') 1 3 [] (3 / 10) ⟨[], 0⟩ = none :=
  ⟨extraction_floor_but_no_iteration_bound.1 (3 / 10) 1 (by norm_num),
   extraction_floor_but_no_iteration_bound.2.1 (3 / 10) 0 32 (by norm_num),
   extraction_floor_but_no_iteration_bound.2.2 3 (3 / 10) ⟨[], 0⟩ (by simp)⟩

/-! ## Statistical test suite

`chi_square_test` and `shannon_entropy` of src/module2_analysis.py, and the
NIST monobit / runs tests of src/qrng/noise_bias_analysis.py.  In
module2_analysis, `chi_square_test("")` evaluates `(0 - 0.0)**2 / 0.0`
(ZeroDivisionError) and `shannon_entropy("")` passes the empty float array
`np.array([])` to `np.bincount` (TypeError): both raise on empty input, so
they are embedded as `Option`-valued with `none` on the empty string.  The
noise_bias_analysis functions guard the empty string and return 0.0. -/

/-- module2_analysis.chi_square_test: χ² against the 50/50 split, pass iff
χ² < 3.841.  `none` models the ZeroDivisionError on empty input
(`expected = total / 2 = 0.0`). -/
def chi_square_test (bits : List Char) : Option (ℚ × Bool) :=
  if bits.length = 0 then none
  else
    let expected : ℚ := (bits.length : ℚ) / 2
    let chi := ((bits.count '0' : ℚ) - expected) ^ 2 / expected +
               ((bits.count '1' : ℚ) - expected) ^ 2 / expected
    some (chi, decide (chi < 3841 / 1000))

/-- module2_analysis.shannon_entropy: scipy entropy (base 2) of the
symbol-frequency distribution, keeping only positive probabilities.
`none` models the exception raised on empty input. -/
noncomputable def shannon_entropy_m2 (bits : List Char) : Option ℝ :=
  if bits.length = 0 then none
  else
    let p0 : ℝ := (bits.count '0' : ℝ) / (bits.length : ℝ)
    let p1 : ℝ := (bits.count '1' : ℝ) / (bits.length : ℝ)
    some ((if 0 < p0 then -(p0 * Real.logb 2 p0) else 0) +
          (if 0 < p1 then -(p1 * Real.logb 2 p1) else 0))

/-- noise_bias_analysis.shannon_entropy: same formula, but the empty string
is guarded and yields 0.0. -/
noncomputable def nb_shannon_entropy (bits : List Char) : ℝ :=
  if bits.length = 0 then 0
  else
    let p0 : ℝ := (bits.count '0' : ℝ) / (bits.length : ℝ)
    let p1 : ℝ := (bits.count '1' : ℝ) / (bits.length : ℝ)
    (if 0 < p0 then -(p0 * Real.logb 2 p0) else 0) +
      (if 0 < p1 then -(p1 * Real.logb 2 p1) else 0)

/-- The complementary error function, `math.erfc`. -/
noncomputable def erfc (x : ℝ) : ℝ :=
  2 / Real.sqrt Real.pi * ∫ t in Set.Ioi x, Real.exp (-(t ^ 2))

/-- noise_bias_analysis.nist_frequency_monobit_test: bits map to ±1 with sum
`s`, statistic `|s|/√n`, p-value `erfc(statistic/√2)`; 0.0 on empty input. -/
noncomputable def nist_frequency_monobit_test (bits : List Char) : ℝ :=
  if bits.length = 0 then 0
  else
    let ones := bits.count '1'
    let s : ℝ := (ones : ℝ) - ((bits.length : ℝ) - (ones : ℝ))
    let sobs := |s| / Real.sqrt (bits.length : ℝ)
    erfc (sobs / Real.sqrt 2)

/-- `runs = 1 + ` the number of adjacent positions holding different
characters (the `for i in range(1, n)` loop of `nist_runs_test`). -/
def runsCount (bits : List Char) : ℕ :=
  1 + (bits.zip bits.tail).countP fun p => decide (p.1 ≠ p.2)

/-- The observed proportion of ones, `pi = ones / n`. -/
noncomputable def onesFrac (bits : List Char) : ℝ :=
  (bits.count '1' : ℝ) / (bits.length : ℝ)

/-- The runs-test denominator `2 * sqrt(2 * n) * pi * (1 - pi)`. -/
noncomputable def runsDen (bits : List Char) : ℝ :=
  2 * Real.sqrt (2 * (bits.length : ℝ)) * onesFrac bits * (1 - onesFrac bits)

/-- noise_bias_analysis.nist_runs_test: 0.0 for `n < 2`; 0.0 when
`|pi - 0.5| >= 2/sqrt(n)` (inapplicable); otherwise
`erfc(|runs - 2 n pi (1-pi)| / denominator)`, guarded to 0.0 when the
denominator is zero. -/
noncomputable def nist_runs_test (bits : List Char) : ℝ :=
  if bits.length < 2 then 0
  else if 2 / Real.sqrt (bits.length : ℝ) ≤ |onesFrac bits - 1 / 2| then 0
  else
    let num := |(runsCount bits : ℝ) -
      2 * (bits.length : ℝ) * onesFrac bits * (1 - onesFrac bits)|
    if runsDen bits ≠ 0 then erfc (num / runsDen bits) else 0

/-- The runs test exactly as the claim states it: p = 0 iff the sequence is
too imbalanced (`|pi - 0.5| >= 2/sqrt(n)`), else `erfc(...)` with no further
guard. -/
noncomputable def runsTestClaimed (bits : List Char) : ℝ :=
  if 2 / Real.sqrt (bits.length : ℝ) ≤ |onesFrac bits - 1 / 2| then 0
  else
    erfc (|(runsCount bits : ℝ) -
      2 * (bits.length : ℝ) * onesFrac bits * (1 - onesFrac bits)| / runsDen bits)

/-- The documented decision rule of nist_runs_test ("Pass if p-value >=
0.01"). -/
noncomputable def runs_test_passed (bits : List Char) : Prop :=
  1 / 100 ≤ nist_runs_test bits

/-- C3 counterexample: module2_analysis's chi-square test and Shannon
entropy both raise on the empty bitstring (ZeroDivisionError resp. a numpy
TypeError), modelled as `none` — refuting the claim that every statistical
test returns a defined zeroed result on empty input. -/
theorem stats_empty_input_counterexample :
    chi_square_test [] = none ∧ shannon_entropy_m2 [] = none :=
  ⟨rfl, by simp [shannon_entropy_m2]⟩

/-- C3 (amended): the noise_bias_analysis tests (monobit frequency, runs,
Shannon entropy) return a defined 0.0 on the empty bitstring without
raising, but module2_analysis's chi_square_test and shannon_entropy raise on
empty input; those two are total only on non-empty bitstrings. -/
theorem stats_total_except_module2_empty :
    nist_frequency_monobit_test [] = 0 ∧ nist_runs_test [] = 0 ∧
    nb_shannon_entropy [] = 0 ∧
    (∀ bits : List Char, bits ≠ [] →
      (chi_square_test bits).isSome = true ∧
        (shannon_entropy_m2 bits).isSome = true) := by
  refine ⟨by simp [nist_frequency_monobit_test], by simp [nist_runs_test],
    by simp [nb_shannon_entropy], ?_⟩
  intro bits hb
  have hlen : bits.length ≠ 0 := by simpa using hb
  constructor
  · simp [chi_square_test, hlen]
  · simp [shannon_entropy_m2, hlen]

/-- Witness for C3 (amended): both module2 functions succeed on the
one-character bitstring "0". -/
theorem stats_total_except_module2_empty_witness :
    (chi_square_test ['0']).isSome = true ∧
      (shannon_entropy_m2 ['0']).isSome = true :=
  stats_total_except_module2_empty.2.2.2 ['0'] (by simp)

/-- Every character of a 0/1 bitstring is counted once by `count '0'` and
`count '1'` together. -/
theorem count_zero_add_count_one (bits : List Char)
    (h : ∀ c ∈ bits, c = '0' ∨ c = '1') :
    bits.count '0' + bits.count '1' = bits.length := by
  induction bits with
  | nil => simp
  | cons c tl ih =>
      have hc := h c (by simp)
      have htl := ih fun d hd => h d (by simp [hd])
      rcases hc with rfl | rfl <;>
        simp [List.count_cons, htl] <;> omega

/-- C7: on every non-empty bitstring the chi-square test returns
`χ² = (zeros - n/2)²/(n/2) + (ones - n/2)²/(n/2)` together with the verdict
`χ² < 3.841`; and on an exactly balanced bitstring (as many zeros as ones)
it returns exactly χ² = 0 with a passing verdict. -/
theorem chi_square_formula_and_balanced_zero :
    (∀ bits : List Char, bits ≠ [] →
        chi_square_test bits =
          some (((bits.count '0' : ℚ) - (bits.length : ℚ) / 2) ^ 2 /
                  ((bits.length : ℚ) / 2) +
                ((bits.count '1' : ℚ) - (bits.length : ℚ) / 2) ^ 2 /
                  ((bits.length : ℚ) / 2),
            decide (((bits.count '0' : ℚ) - (bits.length : ℚ) / 2) ^ 2 /
                  ((bits.length : ℚ) / 2) +
                ((bits.count '1' : ℚ) - (bits.length : ℚ) / 2) ^ 2 /
                  ((bits.length : ℚ) / 2) < 3841 / 1000))) ∧
    (∀ bits : List Char, (∀ c ∈ bits, c = '0' ∨ c = '1') → bits ≠ [] →
        bits.count '0' = bits.count '1' →
        chi_square_test bits = some (0, true)) := by
  constructor
  · intro bits hb
    have hlen : bits.length ≠ 0 := by simpa using hb
    simp [chi_square_test, hlen]
  · intro bits hbit hb hcnt
    have hlen : bits.length ≠ 0 := by simpa using hb
    have hsum := count_zero_add_count_one bits hbit
    have h0 : (bits.count '0' : ℚ) - (bits.length : ℚ) / 2 = 0 := by
      have : (2 : ℚ) * (bits.count '0' : ℚ) = (bits.length : ℚ) := by
        push_cast [← hsum, hcnt]
        ring
      linarith
    have h1 : (bits.count '1' : ℚ) - (bits.length : ℚ) / 2 = 0 := by
      have : (2 : ℚ) * (bits.count '1' : ℚ) = (bits.length : ℚ) := by
        push_cast [← hsum, hcnt]
        ring
      linarith
    simp [chi_square_test, hlen, h0, h1]

/-- Witness for C7: the balanced bitstring of 5000 zeros followed by 5000
ones yields exactly χ² = 0, which passes. -/
theorem chi_square_balanced_witness :
    chi_square_test (List.replicate 5000 '0' ++ List.replicate 5000 '1') =
      some (0, true) := by
  apply chi_square_formula_and_balanced_zero.2
  · intro c hc
    rcases List.mem_append.mp hc with h | h
    · exact Or.inl (List.eq_of_mem_replicate h)
    · exact Or.inr (List.eq_of_mem_replicate h)
  · apply List.ne_nil_of_length_pos
    rw [List.length_append, List.length_replicate, List.length_replicate]
    norm_num
  · rw [List.count_append, List.count_append, List.count_replicate,
      List.count_replicate, List.count_replicate, List.count_replicate]
    decide

/-! ## C6: the runs test and its silent guards

Besides the imbalance check the source has two further guards the claim
does not mention: `n < 2` returns 0.0 before anything is computed, and a
zero denominator (an all-zero or all-one string short enough to pass the
imbalance check, e.g. "0000") returns 0.0 instead of evaluating the
formula — in Python the claimed formula would divide by zero there. -/

theorem sqrt_four : Real.sqrt 4 = 2 := by
  rw [show (4 : ℝ) = 2 ^ 2 by norm_num, Real.sqrt_sq (by norm_num : (0 : ℝ) ≤ 2)]

theorem erfc_zero : erfc 0 = 1 := by
  have h := integral_gaussian_Ioi 1
  simp only [neg_mul, one_mul] at h
  rw [erfc, h, div_one]
  have hπ : Real.sqrt Real.pi ≠ 0 := ne_of_gt (Real.sqrt_pos.mpr Real.pi_pos)
  field_simp

theorem onesFrac_zeros4 : onesFrac ['0', '0', '0', '0'] = 0 := by
  have hc : List.count '1' ['0', '0', '0', '0'] = 0 := by decide
  rw [onesFrac, hc]
  norm_num

theorem runsDen_zeros4 : runsDen ['0', '0', '0', '0'] = 0 := by
  rw [runsDen, onesFrac_zeros4]
  ring

/-- C6 counterexample: on "0000" the code's runs test returns p = 0, while
the claimed formula — `"0000"` is not in the claimed inapplicable region,
since |π − 0.5| = 0.5 < 1 = 2/√4 — evaluates to `erfc(1/0)`, i.e. raises in
Python and equals `erfc 0 = 1` (a pass) under the total-division embedding.
Either way the claim's case split does not describe the code. -/
theorem runs_test_missing_guard_counterexample :
    nist_runs_test ['0', '0', '0', '0'] = 0 ∧
      runsTestClaimed ['0', '0', '0', '0'] = 1 := by
  have hlen : (([ '0', '0', '0', '0'] : List Char).length : ℝ) = 4 := by norm_num
  have happ :
      ¬ 2 / Real.sqrt (([ '0', '0', '0', '0'] : List Char).length : ℝ) ≤
          |onesFrac ['0', '0', '0', '0'] - 1 / 2| := by
    rw [hlen, sqrt_four, onesFrac_zeros4,
      show (0 : ℝ) - 1 / 2 = -(1 / 2) by ring, abs_neg,
      abs_of_nonneg (by norm_num : (0 : ℝ) ≤ 1 / 2)]
    norm_num
  constructor
  · rw [nist_runs_test, if_neg (by norm_num), if_neg happ]
    simp [runsDen_zeros4]
  · rw [runsTestClaimed, if_neg happ, runsDen_zeros4, div_zero, erfc_zero]

/-- C6 (amended): the runs test returns p = 0 when n < 2, p = 0 when
|π − 0.5| ≥ 2/√n (inapplicable, conflated with fail), and p = 0 when the
denominator 2·√(2n)·π·(1−π) is zero; in all remaining cases it returns
exactly the claimed `erfc(|runs − 2nπ(1−π)| / (2√(2n)π(1−π)))`, and per the
documented rule it passes iff p ≥ 0.01. -/
theorem runs_test_with_guards (bits : List Char) :
    (bits.length < 2 → nist_runs_test bits = 0) ∧
    (2 ≤ bits.length →
      2 / Real.sqrt (bits.length : ℝ) ≤ |onesFrac bits - 1 / 2| →
      nist_runs_test bits = 0) ∧
    (2 ≤ bits.length → runsDen bits ≠ 0 →
      nist_runs_test bits = runsTestClaimed bits) ∧
    (runs_test_passed bits ↔ 1 / 100 ≤ nist_runs_test bits) := by
  refine ⟨?_, ?_, ?_, Iff.rfl⟩
  · intro h
    rw [nist_runs_test, if_pos h]
  · intro h2 hcond
    rw [nist_runs_test, if_neg (by omega), if_pos hcond]
  · intro h2 hden
    rw [nist_runs_test, runsTestClaimed, if_neg (by omega)]
    by_cases hc :
        2 / Real.sqrt (bits.length : ℝ) ≤ |onesFrac bits - 1 / 2|
    · rw [if_pos hc, if_pos hc]
    · rw [if_neg hc, if_neg hc, if_pos hden]

/-- Witness for C6 (amended): on the balanced two-character bitstring "01"
the denominator is 1 ≠ 0 and the code's p-value coincides with the claimed
formula. -/
theorem runs_test_with_guards_witness :
    nist_runs_test ['0', '1'] = runsTestClaimed ['0', '1'] := by
  have hones : onesFrac ['0', '1'] = 1 / 2 := by
    have hc : List.count '1' ['0', '1'] = 1 := by decide
    rw [onesFrac, hc]
    norm_num
  have hden : runsDen ['0', '1'] = 1 := by
    have hlen : ((['0', '1'] : List Char).length : ℝ) = 2 := by norm_num
    rw [runsDen, hones, hlen, show (2 : ℝ) * 2 = 4 by norm_num, sqrt_four]
    norm_num
  exact (runs_test_with_guards ['0', '1']).2.2.1 (by norm_num)
    (by rw [hden]; norm_num)

/-! ## Avalanche effect (src/crypto/aes_qrng.py, `avalanche_effect`)

`format(x, "08b")` renders a byte as its 8 binary digits, most significant
first; the two ciphertexts are rendered, compared position by position over
the shorter rendering, and the difference ratio is scaled to percent. -/

/-- `format(x, "08b")` for a byte `x < 256`. -/
def byteBits (x : ℕ) : List Char :=
  (List.range 8).map fun k => if x.testBit (7 - k) then '1' else '0'

/-- crypto/aes_qrng.avalanche_effect. -/
def avalanche_effect (c1 c2 : List ℕ) : ℚ :=
  let b1 := (c1.map byteBits).flatten
  let b2 := (c2.map byteBits).flatten
  let minLen := min b1.length b2.length
  if minLen = 0 then 0
  else (((b1.zip b2).countP fun p => decide (p.1 ≠ p.2) : ℚ) / (minLen : ℚ)) * 100

/-- The number of positions, within the common prefix, holding different
characters (the spec's "number of differing bits in the first min-length
bit positions"). -/
def hammingPrefix : List Char → List Char → ℕ
  | a :: t1, b :: t2 => (if a ≠ b then 1 else 0) + hammingPrefix t1 t2
  | _, _ => 0

theorem byteBits_length (x : ℕ) : (byteBits x).length = 8 := by
  simp [byteBits]

theorem flatten_byteBits_length (c : List ℕ) :
    ((c.map byteBits).flatten).length = 8 * c.length := by
  induction c with
  | nil => simp
  | cons a t ih =>
      simp [List.flatten_cons, byteBits_length, ih]
      ring

theorem zip_countP_eq_hammingPrefix :
    ∀ l1 l2 : List Char,
      ((l1.zip l2).countP fun p => decide (p.1 ≠ p.2)) = hammingPrefix l1 l2 := by
  intro l1
  induction l1 with
  | nil => intro l2; simp [hammingPrefix]
  | cons a t1 ih =>
      intro l2
      cases l2 with
      | nil => simp [hammingPrefix]
      | cons b t2 =>
          simp only [List.zip_cons_cons, List.countP_cons, hammingPrefix, ih t2]
          by_cases h : a = b
          · simp [h]
          · simp [h]
            omega

/-- C8: the avalanche percentage is
`100 × (differing bits in the first min(len c1, len c2) bytes, bitwise) /
(8 × min(len c1, len c2))`, and it is exactly 0 when that minimum is 0
(empty ciphertext guard — no division by zero). -/
theorem avalanche_percent_formula (c1 c2 : List ℕ) :
    avalanche_effect c1 c2 =
      if min c1.length c2.length = 0 then 0
      else 100 * (hammingPrefix ((c1.map byteBits).flatten)
                    ((c2.map byteBits).flatten) : ℚ) /
             ((8 * min c1.length c2.length : ℕ) : ℚ) := by
  have hmin :
      min ((c1.map byteBits).flatten).length ((c2.map byteBits).flatten).length =
        8 * min c1.length c2.length := by
    rw [flatten_byteBits_length, flatten_byteBits_length,
      Nat.mul_min_mul_left]
  rw [avalanche_effect]
  simp only [hmin, zip_countP_eq_hammingPrefix]
  by_cases h : min c1.length c2.length = 0
  · simp [h]
  · rw [if_neg (by omega), if_neg h]
    rw [div_mul_eq_mul_div, mul_comm]

/-! ## Trial aggregation (src/module2_analysis.py, `mean_ci_95`)

`np.mean` is the arithmetic mean; `np.std(values, ddof=1)` is
`sqrt(Σ(x - mean)² / (n - 1))` (the sample standard deviation). -/

noncomputable def listMean (v : List ℝ) : ℝ := v.sum / (v.length : ℝ)

/-- `np.std(values, ddof=1)`. -/
noncomputable def sampleStd (v : List ℝ) : ℝ :=
  Real.sqrt ((v.map fun x => (x - listMean v) ^ 2).sum / ((v.length : ℝ) - 1))

/-- module2_analysis.mean_ci_95. -/
noncomputable def mean_ci_95 (v : List ℝ) : ℝ × ℝ :=
  if v.length = 0 then (0, 0)
  else if v.length = 1 then (listMean v, 0)
  else (listMean v, 1.96 * (sampleStd v / Real.sqrt (v.length : ℝ)))

/-- C9: on every non-empty value list the summary is the mean together with
the half-width `1.96 × sampleStdDev / √n` (sample standard deviation with
the n−1 divisor) — the single-element branch returning 0 agrees with that
formula — and for a single-element list the half-width is exactly 0. -/
theorem mean_ci_95_formula (v : List ℝ) (hv : v ≠ []) :
    mean_ci_95 v =
      (listMean v, 1.96 * (sampleStd v / Real.sqrt (v.length : ℝ))) ∧
    (v.length = 1 → (mean_ci_95 v).2 = 0) := by
  have hlen : v.length ≠ 0 := by simpa using hv
  by_cases h1 : v.length = 1
  · obtain ⟨x, rfl⟩ := List.length_eq_one.mp h1
    have hmean : listMean [x] = x := by
      simp [listMean]
    have hstd : sampleStd [x] = 0 := by
      simp [sampleStd, hmean]
    constructor
    · simp [mean_ci_95, hstd]
    · intro _
      simp [mean_ci_95]
  · constructor
    · rw [mean_ci_95, if_neg hlen, if_neg h1]
    · intro h
      exact absurd h h1

/-- Witness for C9: the single-element list `[1.0]` reports a confidence
half-width of exactly 0. -/
theorem mean_ci_95_single_witness : (mean_ci_95 [(1 : ℝ)]).2 = 0 :=
  (mean_ci_95_formula [(1 : ℝ)] (by simp)).2 (by simp)

/-! ## Key bit flip (src/crypto/aes_qrng.py, `flip_one_bit_in_key`)

The byte string is a `List ℕ` (entries below 256); the bit index is an
`ℤ`, since Python validates `bit_index < 0 or bit_index >= total_bits`
before touching the key; `none` models the ValueError. -/

/-- crypto/aes_qrng.flip_one_bit_in_key. -/
def flip_one_bit_in_key (key : List ℕ) (bitIndex : ℤ) : Option (List ℕ) :=
  if bitIndex < 0 ∨ (8 * key.length : ℤ) ≤ bitIndex then none
  else
    some (key.set (bitIndex.toNat / 8)
      ((key.getD (bitIndex.toNat / 8) 0) ^^^ (1 <<< (bitIndex.toNat % 8))))

/-- How many of the 8 bit positions of two bytes differ. -/
def byteDiff (a b : ℕ) : ℕ :=
  ((Finset.range 8).filter fun t => a.testBit t ≠ b.testBit t).card

/-- Total number of differing bit positions of two equal-length byte
strings. -/
def keyHamming (k1 k2 : List ℕ) : ℕ :=
  ((k1.zip k2).map fun p => byteDiff p.1 p.2).sum

theorem byteDiff_self (a : ℕ) : byteDiff a a = 0 := by
  simp [byteDiff]

theorem byteDiff_xor_single (a b : ℕ) (hb : b < 8) :
    byteDiff a (a ^^^ (1 <<< b)) = 1 := by
  have hpow : (1 <<< b : ℕ) = 2 ^ b := by
    rw [Nat.shiftLeft_eq, one_mul]
  have hiff : ∀ t : ℕ, (a.testBit t ≠ (a ^^^ (1 <<< b)).testBit t) ↔ t = b := by
    intro t
    rw [Nat.testBit_xor, hpow, Nat.testBit_two_pow]
    cases a.testBit t <;> by_cases h : b = t <;> simp [h] <;> omega
  rw [byteDiff]
  have : ((Finset.range 8).filter fun t => a.testBit t ≠ (a ^^^ (1 <<< b)).testBit t) =
      {b} := by
    ext t
    simp only [Finset.mem_filter, Finset.mem_range, hiff, Finset.mem_singleton]
    constructor
    · exact fun h => h.2
    · rintro rfl
      exact ⟨hb, rfl⟩
  rw [this, Finset.card_singleton]

theorem keyHamming_self (k : List ℕ) : keyHamming k k = 0 := by
  induction k with
  | nil => simp [keyHamming]
  | cons a t ih =>
      simp [keyHamming, byteDiff_self] at *
      exact ih

theorem keyHamming_set (k : List ℕ) :
    ∀ (j : ℕ) (v : ℕ), j < k.length →
      keyHamming k (k.set j v) = byteDiff (k.getD j 0) v := by
  induction k with
  | nil => intro j v h; simp at h
  | cons a t ih =>
      intro j v h
      cases j with
      | zero =>
          have := keyHamming_self t
          simp [keyHamming, List.set] at *
          omega
      | succ j =>
          simp only [List.set, keyHamming, List.zip_cons_cons, List.map_cons,
            List.sum_cons, byteDiff_self, List.getD_cons_succ]
          have := ih j v (by simpa using h)
          rw [keyHamming] at this
          omega

theorem getD_set_self (l : List ℕ) :
    ∀ (j : ℕ) (v : ℕ), j < l.length → (l.set j v).getD j 0 = v := by
  induction l with
  | nil => intro j v h; simp at h
  | cons a t ih =>
      intro j v h
      cases j with
      | zero => rfl
      | succ j => exact ih j v (by simpa using h)

theorem set_getD_self (l : List ℕ) :
    ∀ j : ℕ, j < l.length → l.set j (l.getD j 0) = l := by
  induction l with
  | nil => intro j h; simp at h
  | cons a t ih =>
      intro j h
      cases j with
      | zero => rfl
      | succ j =>
          simp only [List.set, List.getD_cons_succ, List.cons.injEq, true_and]
          exact ih j (by simpa using h)

/-- C10: for a bit index in `[0, 8·len(key))` the flip returns a key of the
same length differing from the input in exactly one bit, and flipping the
same index again restores the original key (involution); any index outside
the range is rejected with an error before anything is modified. -/
theorem flip_one_bit_involution (key : List ℕ) (i : ℤ) :
    (0 ≤ i → i < (8 * key.length : ℤ) →
      ∃ k', flip_one_bit_in_key key i = some k' ∧
        k'.length = key.length ∧ keyHamming key k' = 1 ∧
        flip_one_bit_in_key k' i = some key) ∧
    ((i < 0 ∨ (8 * key.length : ℤ) ≤ i) → flip_one_bit_in_key key i = none) := by
  constructor
  · intro h0 hlt
    have hrange : ¬ (i < 0 ∨ (8 * key.length : ℤ) ≤ i) := by omega
    have htn : i.toNat < 8 * key.length := by omega
    have hj : i.toNat / 8 < key.length := by omega
    refine ⟨key.set (i.toNat / 8)
        ((key.getD (i.toNat / 8) 0) ^^^ (1 <<< (i.toNat % 8))), ?_, ?_, ?_, ?_⟩
    · rw [flip_one_bit_in_key, if_neg hrange]
    · exact List.length_set ..
    · rw [keyHamming_set key (i.toNat / 8) _ hj]
      exact byteDiff_xor_single _ _ (Nat.mod_lt _ (by norm_num))
    · rw [flip_one_bit_in_key]
      rw [if_neg (by rw [List.length_set]; exact hrange)]
      rw [getD_set_self key (i.toNat / 8) _ hj]
      rw [List.set_set, Nat.xor_assoc, Nat.xor_self, Nat.xor_zero,
        set_getD_self key (i.toNat / 8) hj]
  · intro h
    rw [flip_one_bit_in_key, if_pos h]

/-- Witness for C10: flipping bit 3 of the one-byte key `[5]` yields `[13]`
(one differing bit), and flipping bit 3 again restores `[5]`. -/
theorem flip_one_bit_involution_witness :
    flip_one_bit_in_key [5] 3 = some [13] ∧ keyHamming [5] [13] = 1 ∧
      flip_one_bit_in_key [13] 3 = some [5] := by
  obtain ⟨k', h1, -, h3, h4⟩ :=
    (flip_one_bit_involution [5] 3).1 (by norm_num) (by norm_num)
  have hc : flip_one_bit_in_key [5] 3 = some [13] := by decide
  have hk : k' = [13] := by
    rw [hc] at h1
    exact (Option.some.inj h1).symm
  subst hk
  exact ⟨hc, h3, h4⟩

end QrngVerify
